import Mathlib

/-!
Verification of the Gonana style checker / auto-fixer core.

Strings are modelled as `List Char` (Go iterates runes; every byte index the
source uses for slicing sits on an ASCII character, so the rune-level model is
exact). Machine floats in the scorer are modelled by `ℚ`: the scores involved
are integer-valued combinations of 100, 5 and 2 on which Go's float64
arithmetic is exact.
-/

set_option maxHeartbeats 1000000

namespace Gonana

/-! ## The string model: Go's whitespace and trimming primitives -/

/-- The characters recognised by Go's `unicode.IsSpace` (the Unicode
White_Space property), used by `strings.TrimSpace` and `strings.Fields`. -/
def goIsSpace (c : Char) : Bool :=
  c == ' ' || c == '\t' || c == '\n' || c == '\x0b' || c == '\x0c' || c == '\r' ||
  c.toNat == 0x85 || c.toNat == 0xa0 || c.toNat == 0x1680 ||
  (0x2000 ≤ c.toNat && c.toNat ≤ 0x200a) ||
  c.toNat == 0x2028 || c.toNat == 0x2029 || c.toNat == 0x202f ||
  c.toNat == 0x205f || c.toNat == 0x3000

/-- The character class `\s` of Go's RE2 regexp engine: `[\t\n\f\r ]`. -/
def reIsSpace (c : Char) : Bool :=
  c == '\t' || c == '\n' || c == '\x0c' || c == '\r' || c == ' '

/-- `strings.TrimSpace`. -/
def trimSpace (s : List Char) : List Char :=
  ((s.dropWhile goIsSpace).reverse.dropWhile goIsSpace).reverse

/-- A line is blank when it trims to the empty string
(`strings.TrimSpace(line) == ""`). -/
def isBlank (s : List Char) : Bool :=
  (trimSpace s).isEmpty

/-- `strings.HasPrefix s p` (arguments: pattern first). -/
def startsWith : List Char → List Char → Bool
  | [], _ => true
  | _ :: _, [] => false
  | a :: ps, b :: ss => a == b && startsWith ps ss

/-- `strings.Contains s p`: `p` occurs as a contiguous substring of `s`. -/
def containsSeq (p : List Char) : List Char → Bool
  | [] => p.isEmpty
  | c :: ss => startsWith p (c :: ss) || containsSeq p ss

/-- Helper for `fields`: accumulates the current word (reversed). -/
def fieldsAux : List Char → List Char → List (List Char)
  | acc, [] => if acc.isEmpty then [] else [acc.reverse]
  | acc, c :: cs =>
    if goIsSpace c then
      if acc.isEmpty then fieldsAux [] cs else acc.reverse :: fieldsAux [] cs
    else fieldsAux (c :: acc) cs

/-- `strings.Fields`: the maximal runs of non-whitespace characters. -/
def fields (s : List Char) : List (List Char) :=
  fieldsAux [] s

/-- Helper for `splitOnChar`: accumulates the current segment (reversed). -/
def splitOnCharAux (sep : Char) : List Char → List Char → List (List Char)
  | acc, [] => [acc.reverse]
  | acc, c :: cs =>
    if c == sep then acc.reverse :: splitOnCharAux sep [] cs
    else splitOnCharAux sep (c :: acc) cs

/-- `strings.Split s (string sep)` for a one-character separator. -/
def splitOnChar (sep : Char) (s : List Char) : List (List Char) :=
  splitOnCharAux sep [] s

/-! ## Data model -/

/-- `types.Violation`. -/
structure Violation where
  rule : String
  message : String
  line : Nat
  severity : String
  description : String
deriving DecidableEq

/-- `fixer.Fix`. -/
structure Fix where
  rule : String
  description : String
  line : Nat
deriving DecidableEq

/-! ## The scorer (`Analyzer.CalculateScore`) -/

/-- The per-violation penalty applied inside `CalculateScore`'s loop:
`5.0` unless the severity is `"minor"`, in which case `2.0`. -/
def violationPenalty (v : Violation) : ℚ :=
  if v.severity = "minor" then 2 else 5

/-- `Analyzer.CalculateScore`: start from `100.0`, subtract each violation's
penalty, clamp at `0`. -/
def CalculateScore (violations : List Violation) : ℚ :=
  let score := violations.foldl (fun s v => s - violationPenalty v) 100
  if score < 0 then 0 else score

theorem foldl_sub_penalty (vs : List Violation) (a : ℚ) :
    vs.foldl (fun s v => s - violationPenalty v) a
      = a - (vs.map violationPenalty).sum := by
  induction vs generalizing a with
  | nil => simp
  | cons v vs ih => simp [List.foldl_cons, ih, sub_sub]

theorem penalty_nonneg (v : Violation) : 0 ≤ violationPenalty v := by
  unfold violationPenalty; split <;> norm_num

theorem CalculateScore_max (vs : List Violation) :
    CalculateScore vs = max 0 (100 - (vs.map violationPenalty).sum) := by
  unfold CalculateScore
  rw [foldl_sub_penalty]
  rcases lt_or_le (100 - (vs.map violationPenalty).sum) (0 : ℚ) with h | h
  · simp [h, max_eq_left h.le]
  · simp [not_lt.mpr h, max_eq_right h]

theorem penalty_sum_nonneg (vs : List Violation) :
    0 ≤ (vs.map violationPenalty).sum := by
  apply List.sum_nonneg
  intro x hx
  obtain ⟨v, _, rfl⟩ := List.mem_map.mp hx
  exact penalty_nonneg v

theorem penalty_sum_const (vs : List Violation) (c : ℚ)
    (h : ∀ v ∈ vs, violationPenalty v = c) :
    (vs.map violationPenalty).sum = c * vs.length := by
  induction vs with
  | nil => simp
  | cons v vs ih =>
    have hv := h v (List.mem_cons_self v vs)
    have ih2 := ih (fun w hw => h w (List.mem_cons_of_mem v hw))
    simp [hv, ih2]
    ring

/-- C2: the per-file score is `max 0 (100 − Σ penalty)` with penalty 5 for
major and 2 for minor severities; hence it lies in `[0, 100]`, an empty list
scores exactly 100, a minor-only list scores `max 0 (100 − 2·count)`, and a
major-only list scores `max 0 (100 − 5·count)`. -/
theorem CalculateScore_spec (vs : List Violation) :
    CalculateScore vs = max 0 (100 - (vs.map violationPenalty).sum)
    ∧ 0 ≤ CalculateScore vs
    ∧ CalculateScore vs ≤ 100
    ∧ (vs = [] → CalculateScore vs = 100)
    ∧ ((∀ v ∈ vs, v.severity = "minor") →
        CalculateScore vs = max 0 (100 - 2 * (vs.length : ℚ)))
    ∧ ((∀ v ∈ vs, v.severity = "major") →
        CalculateScore vs = max 0 (100 - 5 * (vs.length : ℚ))) := by
  refine ⟨CalculateScore_max vs, ?_, ?_, ?_, ?_, ?_⟩
  · rw [CalculateScore_max]; exact le_max_left _ _
  · rw [CalculateScore_max]
    have h := penalty_sum_nonneg vs
    apply max_le (by norm_num)
    linarith
  · intro h; subst h; simp [CalculateScore]
  · intro h
    rw [CalculateScore_max, penalty_sum_const vs 2]
    intro v hv
    simp [violationPenalty, h v hv]
  · intro h
    rw [CalculateScore_max, penalty_sum_const vs 5]
    intro v hv
    simp [violationPenalty, h v hv]

/-- Witness for C2 at a concrete input: one minor violation scores 98. -/
theorem CalculateScore_spec_witness :
    CalculateScore [⟨"C-C1", "m", 1, "minor", "d"⟩] = 98 := by
  have h := (CalculateScore_spec [⟨"C-C1", "m", 1, "minor", "d"⟩]).2.2.2.2.1
    (by intro v hv; simp at hv; rw [hv])
  rw [h]; norm_num

/-! ## The C-L2 check (`rules.CheckEmptyLines`) -/

/-- The consecutive-blank-line scan of `CheckEmptyLines`: the pair
`(a, b)` starting at 0-based index `i` reports line `i + 2`. -/
def consecutiveEmptyViolations : Nat → List (List Char) → List Violation
  | i, a :: b :: rest =>
    (if isBlank a && isBlank b then
      [⟨"C-L2", "Consecutive empty lines", i + 2, "minor",
        "Multiple consecutive empty lines are forbidden"⟩]
     else [])
    ++ consecutiveEmptyViolations (i + 1) (b :: rest)
  | _, _ => []

/-- `rules.CheckEmptyLines`: blank first line, blank last line (when more
than one line), and every adjacent pair of blank lines. -/
def checkEmptyLines (lines : List (List Char)) : List Violation :=
  (match lines with
   | [] => []
   | a :: _ =>
     if isBlank a then
       [⟨"C-L2", "Empty line at beginning of file", 1, "minor",
         "File should not start with empty line"⟩]
     else [])
  ++ (if 1 < lines.length then
        if isBlank (lines.getLastD []) then
          [⟨"C-L2", "Empty line at end of file", lines.length, "minor",
            "File should not end with empty line"⟩]
        else []
      else [])
  ++ consecutiveEmptyViolations 0 lines

theorem consecutiveEmptyViolations_length (L : List (List Char)) :
    ∀ i, (consecutiveEmptyViolations i L).length
      = (L.zip L.tail).countP (fun p => isBlank p.1 && isBlank p.2) := by
  induction L with
  | nil => intro i; simp [consecutiveEmptyViolations]
  | cons a t ih =>
    intro i
    cases t with
    | nil => simp [consecutiveEmptyViolations]
    | cons b rest =>
      have := ih (i + 1)
      simp only [consecutiveEmptyViolations, List.length_append, this,
        List.zip_cons_cons, List.tail_cons, List.countP_cons]
      by_cases h : (isBlank a && isBlank b) = true <;> (simp [h]; try omega)

theorem consecutiveEmptyViolations_minor (L : List (List Char)) :
    ∀ i v, v ∈ consecutiveEmptyViolations i L →
      v.severity = "minor" ∧ v.rule = "C-L2" := by
  induction L with
  | nil => intro i v hv; simp [consecutiveEmptyViolations] at hv
  | cons a t ih =>
    intro i v hv
    cases t with
    | nil => simp [consecutiveEmptyViolations] at hv
    | cons b rest =>
      simp only [consecutiveEmptyViolations, List.mem_append] at hv
      rcases hv with hv | hv
      · by_cases h : (isBlank a && isBlank b) = true
        · simp [h] at hv; simp [hv]
        · simp [h] at hv
      · exact ih (i + 1) v hv

/-- C3: `CheckEmptyLines` reports, independently and cumulatively, one minor
violation for a blank first line, one for a blank last line of a multi-line
file, and one for every adjacent pair of blank lines; every emitted violation
is a minor `C-L2` violation. -/
theorem checkEmptyLines_count_spec (lines : List (List Char)) :
    (checkEmptyLines lines).length =
      (match lines with
       | [] => 0
       | a :: _ => if isBlank a then 1 else 0)
      + (if 1 < lines.length then
           if isBlank (lines.getLastD []) then 1 else 0
         else 0)
      + (lines.zip lines.tail).countP (fun p => isBlank p.1 && isBlank p.2)
    ∧ ∀ v ∈ checkEmptyLines lines, v.severity = "minor" ∧ v.rule = "C-L2" := by
  constructor
  · unfold checkEmptyLines
    rw [List.length_append, List.length_append,
      consecutiveEmptyViolations_length lines 0]
    cases lines with
    | nil => simp
    | cons a t =>
      by_cases h1 : isBlank a = true <;>
        by_cases h2 : 1 < (a :: t).length <;>
          by_cases h3 : isBlank ((a :: t).getLast?.getD []) = true <;>
            simp [h1, h2, h3] <;> (try (split <;> simp))
  · intro v hv
    unfold checkEmptyLines at hv
    simp only [List.mem_append] at hv
    rcases hv with (hv | hv) | hv
    · cases lines with
      | nil => simp at hv
      | cons a t =>
        by_cases h : isBlank a = true
        · simp [h] at hv; simp [hv]
        · simp [h] at hv
    · by_cases h2 : 1 < lines.length
      · by_cases h3 : isBlank (lines.getLast?.getD []) = true
        · simp [h2, h3] at hv; simp [hv]
        · simp [h2, h3] at hv
      · simp [h2] at hv
    · exact consecutiveEmptyViolations_minor lines 0 v hv

/-- Witness for C3: the first violation of a file starting with a blank
line is a minor one. -/
theorem checkEmptyLines_count_spec_witness :
    ((checkEmptyLines [[], ['x']]).headD ⟨"", "", 0, "", ""⟩).severity
      = "minor" :=
  ((checkEmptyLines_count_spec [[], ['x']]).2 _ (by decide)).1

/-! ## The snake_case predicate (`isSnakeCase`) -/

/-- ASCII uppercase test (`r >= 'A' && r <= 'Z'` in the source). -/
def isUpperAscii (c : Char) : Bool :=
  65 ≤ c.toNat && c.toNat ≤ 90

/-- The body of `isSnakeCase`'s loop: `first` tracks `i == 0` and
`rest.isEmpty` is `i == len(s)-1` (an underscore is one byte, so the
source's byte-index comparison recognises exactly the last character). -/
def isSnakeCaseAux : Bool → List Char → Bool
  | _, [] => true
  | first, c :: rest =>
    if isUpperAscii c then false
    else if c == '_' && (first || rest.isEmpty) then false
    else isSnakeCaseAux false rest

/-- `isSnakeCase`: rejects the empty string, any ASCII uppercase letter, and
an underscore in first or last position. -/
def isSnakeCase (s : List Char) : Bool :=
  if s.isEmpty then false else isSnakeCaseAux true s

theorem isSnakeCaseAux_iff (l : List Char) :
    ∀ first, isSnakeCaseAux first l = true ↔
      (∀ c ∈ l, isUpperAscii c = false)
      ∧ (first = true → l.head? ≠ some '_')
      ∧ l.getLast? ≠ some '_' := by
  induction l with
  | nil => intro first; simp [isSnakeCaseAux]
  | cons c rest ih =>
    intro first
    by_cases hu : isUpperAscii c = true
    · rw [isSnakeCaseAux, if_pos hu]
      constructor
      · intro h; simp at h
      · rintro ⟨ha, -, -⟩
        exact absurd (ha c (by simp)) (by simp [hu])
    · by_cases h_ : c = '_'
      · cases rest with
        | nil =>
          subst h_
          simp [isSnakeCaseAux, hu]
        | cons b tl =>
          subst h_
          cases first with
          | true => simp [isSnakeCaseAux, hu]
          | false =>
            rw [isSnakeCaseAux, if_neg (by simpa using hu), if_neg (by simp),
              ih false, List.getLast?_cons_cons]
            constructor
            · rintro ⟨ha, -, hb⟩
              refine ⟨?_, by simp, hb⟩
              intro d hd
              rcases List.mem_cons.mp hd with rfl | hd
              · simpa using hu
              · exact ha d hd
            · rintro ⟨ha, -, hb⟩
              exact ⟨fun d hd => ha d (List.mem_cons_of_mem _ hd), by simp, hb⟩
      · rw [isSnakeCaseAux, if_neg (by simpa using hu), if_neg (by simp [h_]),
          ih false]
        cases rest with
        | nil =>
          constructor
          · rintro -
            refine ⟨?_, ?_, ?_⟩
            · intro d hd
              rcases List.mem_cons.mp hd with rfl | hd
              · simpa using hu
              · simp at hd
            · intro _ h
              exact h_ (by simpa using h)
            · intro h
              exact h_ (by simpa using h)
          · rintro -
            exact ⟨by simp, by simp, by simp⟩
        | cons b tl =>
          rw [List.getLast?_cons_cons]
          constructor
          · rintro ⟨ha, -, hb⟩
            refine ⟨?_, ?_, hb⟩
            · intro d hd
              rcases List.mem_cons.mp hd with rfl | hd
              · simpa using hu
              · exact ha d hd
            · intro _ h
              exact h_ (by simpa using h)
          · rintro ⟨ha, -, hb⟩
            exact ⟨fun d hd => ha d (List.mem_cons_of_mem _ hd), by simp, hb⟩

/-- C6 (amended): `isSnakeCase` accepts exactly the nonempty strings that
contain no ASCII uppercase letter and whose first and last characters are not
underscores — the character set is otherwise unrestricted. -/
theorem isSnakeCase_characterization (s : List Char) :
    isSnakeCase s = true ↔
      s ≠ [] ∧ (∀ c ∈ s, isUpperAscii c = false)
        ∧ s.head? ≠ some '_' ∧ s.getLast? ≠ some '_' := by
  cases s with
  | nil => simp [isSnakeCase]
  | cons c rest =>
    unfold isSnakeCase
    rw [if_neg (by simp)]
    rw [isSnakeCaseAux_iff (c :: rest) true]
    constructor
    · rintro ⟨ha, hh, hl⟩
      exact ⟨by simp, ha, hh rfl, hl⟩
    · rintro ⟨-, ha, hh, hl⟩
      exact ⟨ha, fun _ => hh, hl⟩

/-- Witness for C6's amended characterization, applied at `"ab_c"`. -/
theorem isSnakeCase_characterization_witness :
    isSnakeCase ("ab_c".toList) = true :=
  (isSnakeCase_characterization ("ab_c".toList)).mpr (by decide)

/-- Counterexample for C6 as stated: `"a-b"` contains `'-'`, which is neither
a lowercase letter, a digit, nor an underscore, yet `isSnakeCase` accepts it:
the source only rejects uppercase letters and edge underscores. -/
theorem isSnakeCase_accepts_hyphen :
    isSnakeCase ("a-b".toList) = true
    ∧ '-' ∈ "a-b".toList
    ∧ ¬('a' ≤ '-' ∧ '-' ≤ 'z') ∧ ¬('0' ≤ '-' ∧ '-' ≤ '9') ∧ '-' ≠ '_' := by
  decide

/-! ## The empty-line compaction pass (`fixer.fixEmptyLines`) -/

/-- Leading-blank removal: `i` is the running 0-based index (`startIdx`), and
each removed line is reported at `i + 1`. -/
def removeLeading : Nat → List (List Char) → List (List Char) × List Fix
  | _, [] => ([], [])
  | i, l :: ls =>
    if isBlank l then
      let r := removeLeading (i + 1) ls
      (r.1, ⟨"C-L2", "Removed empty line at beginning of file", i + 1⟩ :: r.2)
    else (l :: ls, [])

/-- The middle scan of `fixEmptyLines`: `prev` is `prevEmpty`, `i` the
original 0-based index of the current line. A blank line following a blank
line is dropped and reported at `i + 1`. -/
def compactMiddle : Bool → Nat → List (List Char) → List (List Char) × List Fix
  | _, _, [] => ([], [])
  | prev, i, l :: ls =>
    if isBlank l && prev then
      let r := compactMiddle prev (i + 1) ls
      (r.1, ⟨"C-L2", "Removed consecutive empty line", i + 1⟩ :: r.2)
    else
      let r := compactMiddle (isBlank l) (i + 1) ls
      (l :: r.1, r.2)

/-- Trailing-blank removal, operating on the reversed list: `rl` is the
remaining lines last-first and `n` the current length of the unreversed
list, which is the 1-based line number the source reports before popping. -/
def removeTrailingAux : List (List Char) → Nat → List (List Char) × List Fix
  | [], _ => ([], [])
  | l :: ls, n =>
    if isBlank l then
      let r := removeTrailingAux ls (n - 1)
      (r.1, ⟨"C-L2", "Removed empty line at end of file", n⟩ :: r.2)
    else (l :: ls, [])

/-- The `for len(fixed) > 0 && blank(last)` loop of the source. -/
def removeTrailing (l : List (List Char)) : List (List Char) × List Fix :=
  let r := removeTrailingAux l.reverse l.length
  (r.1.reverse, r.2)

/-- `fixer.fixEmptyLines`: strip leading blanks, suppress blanks following
blanks, strip trailing blanks, one `Fix` per removed line. -/
def fixEmptyLines (lines : List (List Char)) : List (List Char) × List Fix :=
  if lines.isEmpty then (lines, []) else
  let r1 := removeLeading 0 lines
  let r2 := compactMiddle false r1.2.length r1.1
  let r3 := removeTrailing r2.1
  (r3.1, r1.2 ++ r2.2 ++ r3.2)

/-- Claim-side restatement of the middle scan, free of fix bookkeeping. -/
def compactSpec : Bool → List (List Char) → List (List Char)
  | _, [] => []
  | prev, l :: ls =>
    if isBlank l && prev then compactSpec prev ls
    else l :: compactSpec (isBlank l) ls

/-- Claim-side trailing strip: drop blank lines from the end. -/
def stripTrailingBlanks : List (List Char) → List (List Char)
  | [] => []
  | l :: ls =>
    match stripTrailingBlanks ls with
    | [] => if isBlank l then [] else [l]
    | r => l :: r

theorem removeLeading_fst (L : List (List Char)) :
    ∀ i, (removeLeading i L).1 = L.dropWhile isBlank := by
  induction L with
  | nil => intro i; simp [removeLeading]
  | cons l ls ih =>
    intro i
    by_cases h : isBlank l = true <;> simp [removeLeading, List.dropWhile, h, ih]

theorem removeLeading_len (L : List (List Char)) :
    ∀ i, (removeLeading i L).1.length + (removeLeading i L).2.length
      = L.length := by
  induction L with
  | nil => intro i; simp [removeLeading]
  | cons l ls ih =>
    intro i
    by_cases h : isBlank l = true
    · have := ih (i + 1)
      simp only [removeLeading, h, if_true, List.length_cons]
      omega
    · simp [removeLeading, h]

theorem compactMiddle_fst (L : List (List Char)) :
    ∀ prev i, (compactMiddle prev i L).1 = compactSpec prev L := by
  induction L with
  | nil => intro prev i; simp [compactMiddle, compactSpec]
  | cons l ls ih =>
    intro prev i
    by_cases h : (isBlank l && prev) = true <;>
      simp [compactMiddle, compactSpec, h, ih]

theorem compactMiddle_len (L : List (List Char)) :
    ∀ prev i, (compactMiddle prev i L).1.length
      + (compactMiddle prev i L).2.length = L.length := by
  induction L with
  | nil => intro prev i; simp [compactMiddle]
  | cons l ls ih =>
    intro prev i
    by_cases h : (isBlank l && prev) = true
    · have := ih prev (i + 1)
      simp only [compactMiddle, h, if_true, List.length_cons]
      omega
    · have := ih (isBlank l) (i + 1)
      rw [compactMiddle, if_neg h]
      simp only [List.length_cons]
      omega

theorem removeTrailingAux_fst (L : List (List Char)) :
    ∀ n, (removeTrailingAux L n).1 = L.dropWhile isBlank := by
  induction L with
  | nil => intro n; simp [removeTrailingAux]
  | cons l ls ih =>
    intro n
    by_cases h : isBlank l = true <;>
      simp [removeTrailingAux, List.dropWhile, h, ih]

theorem removeTrailingAux_len (L : List (List Char)) :
    ∀ n, (removeTrailingAux L n).1.length + (removeTrailingAux L n).2.length
      = L.length := by
  induction L with
  | nil => intro n; simp [removeTrailingAux]
  | cons l ls ih =>
    intro n
    by_cases h : isBlank l = true
    · have := ih (n - 1)
      simp only [removeTrailingAux, h, if_true, List.length_cons]
      omega
    · simp [removeTrailingAux, h]

theorem stripTrailingBlanks_eq (L : List (List Char)) :
    stripTrailingBlanks L = (L.reverse.dropWhile isBlank).reverse := by
  induction L with
  | nil => simp [stripTrailingBlanks]
  | cons l ls ih =>
    rw [stripTrailingBlanks, ih]
    rw [List.reverse_cons, List.dropWhile_append]
    by_cases h : (ls.reverse.dropWhile isBlank).isEmpty = true
    · simp only [h, if_true]
      have h2 : (ls.reverse.dropWhile isBlank).reverse = [] := by
        rw [List.isEmpty_iff] at h; simp [h]
      rw [h2]
      by_cases hb : isBlank l = true <;> simp [List.dropWhile, hb]
    · simp only [h, if_false]
      have h2 : (ls.reverse.dropWhile isBlank).reverse ≠ [] := by
        rw [ne_eq, List.reverse_eq_nil_iff]
        intro hc
        exact h (by simp [hc])
      cases hr : (ls.reverse.dropWhile isBlank).reverse with
      | nil => exact absurd hr h2
      | cons r rs => simp [← hr]

theorem removeTrailing_fst (L : List (List Char)) :
    (removeTrailing L).1 = stripTrailingBlanks L := by
  rw [removeTrailing, stripTrailingBlanks_eq, removeTrailingAux_fst]

theorem fixEmptyLines_shape (L : List (List Char)) :
    (fixEmptyLines L).1
      = stripTrailingBlanks (compactSpec false (L.dropWhile isBlank)) := by
  cases L with
  | nil => simp [fixEmptyLines, compactSpec, stripTrailingBlanks]
  | cons l ls =>
    rw [fixEmptyLines, if_neg (by simp)]
    rw [removeTrailing_fst, compactMiddle_fst, removeLeading_fst]

theorem fixEmptyLines_len (L : List (List Char)) :
    (fixEmptyLines L).1.length + (fixEmptyLines L).2.length = L.length := by
  cases L with
  | nil => simp [fixEmptyLines]
  | cons l ls =>
    rw [fixEmptyLines, if_neg (by simp)]
    simp only [List.length_append]
    have e1 := removeLeading_len (l :: ls) 0
    have e2 := compactMiddle_len (removeLeading 0 (l :: ls)).1 false
      (removeLeading 0 (l :: ls)).2.length
    have e3l : (removeTrailing (compactMiddle false
        (removeLeading 0 (l :: ls)).2.length (removeLeading 0 (l :: ls)).1).1).1.length
        + (removeTrailing (compactMiddle false
        (removeLeading 0 (l :: ls)).2.length (removeLeading 0 (l :: ls)).1).1).2.length
        = (compactMiddle false (removeLeading 0 (l :: ls)).2.length
            (removeLeading 0 (l :: ls)).1).1.length := by
      rw [removeTrailing]
      have := removeTrailingAux_len (compactMiddle false
        (removeLeading 0 (l :: ls)).2.length (removeLeading 0 (l :: ls)).1).1.reverse
        (compactMiddle false (removeLeading 0 (l :: ls)).2.length
          (removeLeading 0 (l :: ls)).1).1.length
      simpa using this
    omega

/-- C4: the empty-line pass drops leading blanks, suppresses each blank line
following another blank line, drops trailing blanks, and emits exactly one
`Fix` per removed line (output length plus fix count equals input length);
the two worked examples from the specification evaluate as stated. -/
theorem fixEmptyLines_spec (L : List (List Char)) :
    (fixEmptyLines L).1
      = stripTrailingBlanks (compactSpec false (L.dropWhile isBlank))
    ∧ (fixEmptyLines L).1.length + (fixEmptyLines L).2.length = L.length
    ∧ (fixEmptyLines [[], [], ("int main() \x7b").toList, ("\x7d").toList]).1
        = [("int main() \x7b").toList, ("\x7d").toList]
    ∧ (fixEmptyLines [[], [], ("int main() \x7b").toList, ("\x7d").toList]).2.length = 2
    ∧ (fixEmptyLines [("int x;").toList, [], [], ("int y;").toList]).1
        = [("int x;").toList, [], ("int y;").toList]
    ∧ (fixEmptyLines [("int x;").toList, [], [], ("int y;").toList]).2.length = 1 :=
  ⟨fixEmptyLines_shape L, fixEmptyLines_len L, by decide, by decide, by decide,
    by decide⟩

/-! ## C10: the compacted output passes the C-L2 check -/

/-- No two adjacent blank lines. -/
def noAdjacentBlanks : List (List Char) → Bool
  | a :: b :: t => (!(isBlank a && isBlank b)) && noAdjacentBlanks (b :: t)
  | _ => true

theorem noAdjacentBlanks_cons (x : List Char) (ys : List (List Char)) :
    noAdjacentBlanks (x :: ys)
      = (ys.head?.all (fun y => !(isBlank x && isBlank y))
          && noAdjacentBlanks ys) := by
  cases ys with
  | nil => simp [noAdjacentBlanks]
  | cons y t => simp [noAdjacentBlanks]

theorem head_dropWhile_notBlank (L : List (List Char)) (a : List Char)
    (h : (L.dropWhile isBlank).head? = some a) : isBlank a = false := by
  induction L with
  | nil => simp [List.dropWhile] at h
  | cons l ls ih =>
    rw [List.dropWhile_cons] at h
    by_cases hb : isBlank l = true
    · rw [if_pos hb] at h; exact ih h
    · rw [if_neg hb] at h
      simp only [List.head?_cons, Option.some_inj] at h
      subst h
      simpa using hb

theorem compactSpec_head_true (L : List (List Char)) :
    ∀ a, (compactSpec true L).head? = some a → isBlank a = false := by
  induction L with
  | nil => intro a h; simp [compactSpec] at h
  | cons l ls ih =>
    intro a h
    rw [compactSpec] at h
    by_cases hb : isBlank l = true
    · rw [if_pos (by simp [hb])] at h
      exact ih a h
    · rw [if_neg (by simp [hb])] at h
      simp only [List.head?_cons, Option.some_inj] at h
      subst h
      simpa using hb

theorem compactSpec_head_false (L : List (List Char)) :
    (compactSpec false L).head? = L.head? := by
  cases L with
  | nil => simp [compactSpec]
  | cons l ls =>
    rw [compactSpec, if_neg (by simp)]
    simp

theorem compactSpec_noAdj (L : List (List Char)) :
    ∀ prev, noAdjacentBlanks (compactSpec prev L) = true := by
  induction L with
  | nil => intro prev; simp [compactSpec, noAdjacentBlanks]
  | cons l ls ih =>
    intro prev
    rw [compactSpec]
    by_cases h : (isBlank l && prev) = true
    · rw [if_pos h]; exact ih prev
    · rw [if_neg h, noAdjacentBlanks_cons, Bool.and_eq_true]
      refine ⟨?_, ih (isBlank l)⟩
      by_cases hb : isBlank l = true
      · cases hh : (compactSpec (isBlank l) ls).head? with
        | none => simp
        | some y =>
          rw [hb] at hh
          have := compactSpec_head_true ls y hh
          simp [this]
      · cases hh : (compactSpec (isBlank l) ls).head? with
        | none => simp
        | some y => simp [hb]

theorem stripTrailingBlanks_head (L : List (List Char)) (a : List Char)
    (h : (stripTrailingBlanks L).head? = some a) : L.head? = some a := by
  cases L with
  | nil => simp [stripTrailingBlanks] at h
  | cons l ls =>
    rw [stripTrailingBlanks] at h
    cases hr : stripTrailingBlanks ls with
    | nil =>
      rw [hr] at h
      by_cases hb : isBlank l = true
      · rw [if_pos hb] at h; simp at h
      · rw [if_neg hb] at h
        simpa using h
    | cons r rs =>
      rw [hr] at h
      simpa using h

theorem stripTrailingBlanks_getLast (L : List (List Char)) :
    ∀ a, (stripTrailingBlanks L).getLast? = some a → isBlank a = false := by
  induction L with
  | nil => intro a h; simp [stripTrailingBlanks] at h
  | cons l ls ih =>
    intro a h
    rw [stripTrailingBlanks] at h
    cases hr : stripTrailingBlanks ls with
    | nil =>
      rw [hr] at h
      by_cases hb : isBlank l = true
      · rw [if_pos hb] at h; simp at h
      · rw [if_neg hb] at h
        simp only [List.getLast?_singleton, Option.some_inj] at h
        subst h
        simpa using hb
    | cons r rs =>
      rw [hr, List.getLast?_cons_cons] at h
      exact ih a (by rw [hr]; exact h)

theorem stripTrailingBlanks_noAdj (L : List (List Char))
    (h : noAdjacentBlanks L = true) :
    noAdjacentBlanks (stripTrailingBlanks L) = true := by
  induction L with
  | nil => simpa [stripTrailingBlanks] using h
  | cons l ls ih =>
    rw [noAdjacentBlanks_cons, Bool.and_eq_true] at h
    obtain ⟨hp, hrest⟩ := h
    have ihs := ih hrest
    rw [stripTrailingBlanks]
    cases hr : stripTrailingBlanks ls with
    | nil =>
      by_cases hb : isBlank l = true
      · rw [if_pos hb]; simp [noAdjacentBlanks]
      · rw [if_neg hb]; simp [noAdjacentBlanks]
    | cons r rs =>
      rw [noAdjacentBlanks_cons, Bool.and_eq_true]
      refine ⟨?_, by rw [← hr]; exact ihs⟩
      have hhead : ls.head? = some r :=
        stripTrailingBlanks_head ls r (by rw [hr]; rfl)
      rw [hhead] at hp
      rw [List.head?_cons]
      exact hp

theorem consecutiveEmptyViolations_nil_of_noAdj (L : List (List Char)) :
    ∀ i, noAdjacentBlanks L = true → consecutiveEmptyViolations i L = [] := by
  induction L with
  | nil => intro i _; simp [consecutiveEmptyViolations]
  | cons a t ih =>
    intro i h
    cases t with
    | nil => simp [consecutiveEmptyViolations]
    | cons b rest =>
      rw [noAdjacentBlanks] at h
      rw [Bool.and_eq_true] at h
      obtain ⟨hp, hrest⟩ := h
      have hp2 : (isBlank a && isBlank b) = false := by
        cases hx : (isBlank a && isBlank b)
        · rfl
        · rw [hx] at hp; simp at hp
      rw [consecutiveEmptyViolations]
      rw [if_neg (by simp [hp2])]
      simpa using ih (i + 1) hrest

theorem checkEmptyLines_nil_of_clean (L : List (List Char))
    (h1 : L.head?.all (fun a => !isBlank a) = true)
    (h2 : L.getLast?.all (fun a => !isBlank a) = true)
    (h3 : noAdjacentBlanks L = true) :
    checkEmptyLines L = [] := by
  unfold checkEmptyLines
  rw [consecutiveEmptyViolations_nil_of_noAdj L 0 h3]
  cases L with
  | nil => simp
  | cons a t =>
    simp only [List.head?_cons, Option.all_some] at h1
    have h1a : isBlank a = false := by simpa using h1
    cases hl : (a :: t).getLast? with
    | none => simp at hl
    | some x =>
      rw [hl] at h2
      simp only [Option.all_some] at h2
      have h2x : isBlank x = false := by simpa using h2
      have hgd : (a :: t).getLast?.getD [] = x := by rw [hl]; rfl
      simp [hgd, h1a, h2x]

/-- C10: the output of the empty-line compaction pass alone has no blank
first line, no blank last line, and no two adjacent blank lines; the C-L2
check applied to it reports zero violations. -/
theorem checkEmptyLines_after_fixEmptyLines (L : List (List Char)) :
    (fixEmptyLines L).1.head?.all (fun a => !isBlank a) = true
    ∧ (fixEmptyLines L).1.getLast?.all (fun a => !isBlank a) = true
    ∧ noAdjacentBlanks (fixEmptyLines L).1 = true
    ∧ checkEmptyLines ((fixEmptyLines L).1) = [] := by
  rw [fixEmptyLines_shape]
  have hHead : (stripTrailingBlanks (compactSpec false
      (L.dropWhile isBlank))).head?.all (fun a => !isBlank a) = true := by
    cases hh : (stripTrailingBlanks (compactSpec false
        (L.dropWhile isBlank))).head? with
    | none => simp
    | some a =>
      have h1 := stripTrailingBlanks_head _ a hh
      rw [compactSpec_head_false] at h1
      have := head_dropWhile_notBlank L a h1
      simp [this]
  have hLast : (stripTrailingBlanks (compactSpec false
      (L.dropWhile isBlank))).getLast?.all (fun a => !isBlank a) = true := by
    cases hh : (stripTrailingBlanks (compactSpec false
        (L.dropWhile isBlank))).getLast? with
    | none => simp
    | some a =>
      have := stripTrailingBlanks_getLast _ a hh
      simp [this]
  have hAdj : noAdjacentBlanks (stripTrailingBlanks (compactSpec false
      (L.dropWhile isBlank))) = true :=
    stripTrailingBlanks_noAdj _ (compactSpec_noAdj _ false)
  exact ⟨hHead, hLast, hAdj, checkEmptyLines_nil_of_clean _ hHead hLast hAdj⟩

/-! ## The indentation pass (`fixer.fixIndentation`) -/

/-- The per-line rewrite of the indentation pass: every complete group of 4
leading spaces becomes one tab, the remaining 0-3 spaces are kept, and the
rest of the line is unchanged; lines whose first character is not a space are
untouched. -/
def indentFixLine (l : List Char) : List Char :=
  if l.head? == some ' ' then
    List.replicate ((l.takeWhile (fun c => c == ' ')).length / 4) '\t'
      ++ List.replicate ((l.takeWhile (fun c => c == ' ')).length % 4) ' '
      ++ l.drop (l.takeWhile (fun c => c == ' ')).length
  else l

/-- `fixer.fixIndentation`: rewrites each line whose first character is a
space (`len(line) > 0 && line[0] == ' '`) and records one `Fix` for every
such line, whether or not the rewrite changes it; `i` is the 0-based index
of the current line. -/
def fixIndentation : Nat → List (List Char) → List (List Char) × List Fix
  | _, [] => ([], [])
  | i, l :: ls =>
    let r := fixIndentation (i + 1) ls
    if l.head? == some ' ' then
      ((List.replicate ((l.takeWhile (fun c => c == ' ')).length / 4) '\t'
          ++ List.replicate ((l.takeWhile (fun c => c == ' ')).length % 4) ' '
          ++ l.drop (l.takeWhile (fun c => c == ' ')).length) :: r.1,
       ⟨"C-L3",
        "Replaced " ++ toString (l.takeWhile (fun c => c == ' ')).length
          ++ " spaces with "
          ++ toString ((l.takeWhile (fun c => c == ' ')).length / 4)
          ++ " tabs", i + 1⟩ :: r.2)
    else (l :: r.1, r.2)

theorem fixIndentation_map (L : List (List Char)) :
    ∀ i, (fixIndentation i L).1 = L.map indentFixLine := by
  induction L with
  | nil => intro i; simp [fixIndentation]
  | cons l ls ih =>
    intro i
    by_cases h : (l.head? == some ' ') = true
    · simp [fixIndentation, indentFixLine, h, ih (i + 1)]
    · simp [fixIndentation, indentFixLine, h, ih (i + 1)]

theorem fixIndentation_count (L : List (List Char)) :
    ∀ i, (fixIndentation i L).2.length
      = L.countP (fun l => l.head? == some ' ') := by
  induction L with
  | nil => intro i; simp [fixIndentation]
  | cons l ls ih =>
    intro i
    by_cases h : (l.head? == some ' ') = true
    · simp [fixIndentation, h, ih (i + 1), List.countP_cons]
    · simp [fixIndentation, h, ih (i + 1), List.countP_cons]

/-- C5 (amended): the indentation pass rewrites each line whose first
character is a space by turning every complete group of 4 leading spaces
into one tab and keeping the remaining 0-3 spaces and the rest of the line,
and records exactly one `Fix` per line whose first character is a space —
even when the rewrite leaves the line unchanged (1-3 leading spaces); the
specification's own example rewrites as stated. -/
theorem fixIndentation_spec (L : List (List Char)) :
    (fixIndentation 0 L).1 = L.map indentFixLine
    ∧ (fixIndentation 0 L).2.length
        = L.countP (fun l => l.head? == some ' ')
    ∧ (fixIndentation 0 [("    int x;").toList]).1 = [("\tint x;").toList]
    ∧ (fixIndentation 0 [("    int x;").toList]).2.length = 1
    ∧ indentFixLine ("     int x;").toList = ("\t int x;").toList :=
  ⟨fixIndentation_map L 0, fixIndentation_count L 0, by decide, by decide,
    by decide⟩

/-- Counterexample for C5 as stated: on the line `" x"` (one leading space)
the pass records a `Fix` but does not modify the line, so fixes are not in
one-to-one correspondence with modified lines. -/
theorem fixIndentation_fix_without_modification :
    (fixIndentation 0 [(" x").toList]).1 = [(" x").toList]
    ∧ (fixIndentation 0 [(" x").toList]).2.length = 1 := by
  decide

/-! ## The comment pass (`fixer.fixCommentFormat`) -/

/-- `strings.Index(line, "//")` together with the two slices the source
takes around it: returns the text before the first `//` and the text after
it, or `none` when the line has no `//`. -/
def splitAtSlashSlash : List Char → Option (List Char × List Char)
  | [] => none
  | '/' :: '/' :: rest => some ([], rest)
  | c :: rest =>
    (splitAtSlashSlash rest).map (fun p => (c :: p.1, p.2))

/-- `strings.TrimRight(s, " \t")`. -/
def trimRightSpaceTab (s : List Char) : List Char :=
  (s.reverse.dropWhile (fun c => c == ' ' || c == '\t')).reverse

/-- `fixer.fixCommentFormat`: each line containing `//` is split at its
first occurrence; an empty trimmed remainder drops the comment and
right-trims the prefix, otherwise the remainder is wrapped in `/* ... */`.
One `Fix` per such line. -/
def fixCommentFormat : Nat → List (List Char) → List (List Char) × List Fix
  | _, [] => ([], [])
  | i, l :: ls =>
    let r := fixCommentFormat (i + 1) ls
    match splitAtSlashSlash l with
    | some p =>
      let comment := trimSpace p.2
      ((if comment.isEmpty then trimRightSpaceTab p.1
        else p.1 ++ ("/* ").toList ++ comment ++ (" */").toList) :: r.1,
       ⟨"C-C1", "Converted // comment to /* */", i + 1⟩ :: r.2)
    | none => (l :: r.1, r.2)

/-! ## The declaration-split pass (`fixer.fixMultipleVariableDeclarations`)

The source gates the rewrite on the RE2 pattern
`^\s*(int|char|float|double|long|short|unsigned)\s+([a-zA-Z_][a-zA-Z0-9_]*\s*,\s*)+([a-zA-Z_][a-zA-Z0-9_]*)\s*;`.
The pattern is anchored, its alternatives are prefix-free, and after an
identifier the next significant character is forced to be `,` or `;`, so a
deterministic scanner without backtracking decides it exactly. -/

/-- First character of a C identifier (`[a-zA-Z_]`). -/
def identStart (c : Char) : Bool :=
  (65 ≤ c.toNat && c.toNat ≤ 90) || (97 ≤ c.toNat && c.toNat ≤ 122) || c == '_'

/-- Subsequent character of a C identifier (`[a-zA-Z0-9_]`). -/
def identChar (c : Char) : Bool :=
  identStart c || (48 ≤ c.toNat && c.toNat ≤ 57)

/-- Consume one identifier (`[a-zA-Z_][a-zA-Z0-9_]*`), returning the rest. -/
def parseIdent (l : List Char) : Option (List Char) :=
  match l with
  | [] => none
  | c :: rest => if identStart c then some (rest.dropWhile identChar) else none

/-- The type keywords of the declaration-split pattern. -/
def typeKw7 : List (List Char) :=
  [("int").toList, ("char").toList, ("float").toList, ("double").toList,
   ("long").toList, ("short").toList, ("unsigned").toList]

/-- The type keywords of the for-loop pattern. -/
def typeKw4 : List (List Char) :=
  [("int").toList, ("char").toList, ("float").toList, ("double").toList]

/-- Match one keyword of `kws` as a prefix of `l`, returning the keyword and
the rest (the alternatives are pairwise prefix-free, so at most one fits). -/
def matchTypeKw (kws : List (List Char)) (l : List Char) :
    Option (List Char × List Char) :=
  match kws with
  | [] => none
  | kw :: rest =>
    if startsWith kw l then some (kw, l.drop kw.length)
    else matchTypeKw rest l

/-- The `(ident \s* , \s*)+ ident \s* ;` tail of the declaration pattern:
`seenComma` records whether at least one comma group was consumed. Each
recursive step consumes at least two characters (an identifier head and the
comma), so a fuel of `l.length + 1` is never exhausted and the function
agrees with the regex. -/
def matchDeclTail : Nat → List Char → Bool → Bool
  | 0, _, _ => false
  | fuel + 1, l, seenComma =>
    match parseIdent l with
    | none => false
    | some r =>
      match r.dropWhile reIsSpace with
      | ',' :: rr => matchDeclTail fuel (rr.dropWhile reIsSpace) true
      | ';' :: _ => seenComma
      | _ => false

/-- `varDeclRegex.MatchString(line)`. -/
def varDeclMatch (l : List Char) : Bool :=
  let t := l.dropWhile reIsSpace
  match matchTypeKw typeKw7 t with
  | none => false
  | some kr =>
    let r2 := kr.2.dropWhile reIsSpace
    if r2.length = kr.2.length then false
    else matchDeclTail (r2.length + 1) r2 false

/-- `strings.TrimSuffix(s, ";")`. -/
def trimSuffixSemi (s : List Char) : List Char :=
  if s.getLast? == some ';' then s.dropLast else s

/-- The leading run of tabs and spaces of a line (`indent` in the source). -/
def leadIndent (l : List Char) : List Char :=
  l.takeWhile (fun c => c == '\t' || c == ' ')

/-- `fixer.fixMultipleVariableDeclarations`: a line containing `for` is
skipped; a line matching the declaration pattern is re-parsed with
`strings.Fields`, joined, stripped of one trailing `;`, split on commas, and
replaced by one declaration per name with the original indentation. -/
def fixMultipleVariableDeclarations :
    Nat → List (List Char) → List (List Char) × List Fix
  | _, [] => ([], [])
  | i, l :: ls =>
    let r := fixMultipleVariableDeclarations (i + 1) ls
    if containsSeq (("for").toList) l then (l :: r.1, r.2)
    else if varDeclMatch l then
      let parts := fields (trimSpace l)
      if 2 ≤ parts.length then
        let varsStr := trimSuffixSemi (List.intercalate [' '] parts.tail)
        let vars := splitOnChar ',' varsStr
        ((vars.map (fun v =>
            leadIndent l ++ parts.headD [] ++ [' '] ++ trimSpace v ++ [';']))
           ++ r.1,
         ⟨"C-L4", "Split multiple variable declarations into "
            ++ toString vars.length ++ " lines", i + 1⟩ :: r.2)
      else (l :: r.1, r.2)
    else (l :: r.1, r.2)

/-! ## The for-loop pass (`fixer.fixForLoopDeclarations`)

The source gates on the RE2 pattern
`^\s*for\s*\(\s*(int|char|float|double)\s+([a-zA-Z_][a-zA-Z0-9_]*)\s*=\s*([^;]+);(.*)$`
and uses the four capture groups. After the `=`, the greedy `\s*` and
`[^;]+` interact so that a match exists exactly when at least one character
stands between the `=` and the first following `;`; the third group trims to
the trimmed text between them. `.` does not match a newline and `$` is the
end of the text, so a newline after that `;` defeats the match. -/

/-- Consume one identifier, returning it together with the rest. -/
def parseIdentPair (l : List Char) : Option (List Char × List Char) :=
  match l with
  | [] => none
  | c :: rest =>
    if identStart c then
      some (c :: rest.takeWhile identChar, rest.dropWhile identChar)
    else none

/-- `forDeclRegex.FindStringSubmatch(line)`: the captures
`(type, name, trimmed initial value, rest after the first ;)`. -/
def forDeclParse (l : List Char) :
    Option (List Char × List Char × List Char × List Char) :=
  let t0 := l.dropWhile reIsSpace
  if startsWith (("for").toList) t0 then
    match (t0.drop 3).dropWhile reIsSpace with
    | '(' :: t2 =>
      match matchTypeKw typeKw4 (t2.dropWhile reIsSpace) with
      | none => none
      | some kr =>
        let t5 := kr.2.dropWhile reIsSpace
        if t5.length = kr.2.length then none
        else
          match parseIdentPair t5 with
          | none => none
          | some nr =>
            match nr.2.dropWhile reIsSpace with
            | '=' :: t8 =>
              let seg := t8.takeWhile (fun c => !(c == ';'))
              if seg.length = t8.length then none
              else if seg.length = 0 then none
              else if (t8.drop (seg.length + 1)).any (fun c => c == '\n')
              then none
              else some (kr.1, nr.1, trimSpace seg, t8.drop (seg.length + 1))
            | _ => none
    | _ => none
  else none

/-- `fixer.fixForLoopDeclarations`: a matching loop header is replaced by
the extracted declaration, a blank separator line, and the rewritten
header. -/
def fixForLoopDeclarations :
    Nat → List (List Char) → List (List Char) × List Fix
  | _, [] => ([], [])
  | i, l :: ls =>
    let r := fixForLoopDeclarations (i + 1) ls
    match forDeclParse l with
    | some m =>
      ((leadIndent l ++ m.1 ++ [' '] ++ m.2.1 ++ [';'])
         :: [] :: (leadIndent l ++ ("for (").toList ++ m.2.1
            ++ (" = ").toList ++ m.2.2.1 ++ [';'] ++ m.2.2.2) :: r.1,
       ⟨"C-L5", "Extracted variable declaration from for loop", i + 1⟩ :: r.2)
    | none => (l :: r.1, r.2)

/-! ## The full fixer pipeline (`Fixer.FixFile`, line passes only) -/

/-- The five line-rewriting passes of `FixFile`, in source order, with the
accumulated `Fix` list. -/
def runPipeline (lines : List (List Char)) : List (List Char) × List Fix :=
  let r1 := fixEmptyLines lines
  let r2 := fixIndentation 0 r1.1
  let r3 := fixMultipleVariableDeclarations 0 r2.1
  let r4 := fixCommentFormat 0 r3.1
  let r5 := fixForLoopDeclarations 0 r4.1
  (r5.1, r1.2 ++ r2.2 ++ r3.2 ++ r4.2 ++ r5.2)

/-! ## C1: the pipeline is not idempotent; fixpoint characterization -/

theorem compactMiddle_noop (L : List (List Char)) :
    ∀ prev i, noAdjacentBlanks L = true →
      (prev = true → L.head?.all (fun a => !isBlank a) = true) →
      compactMiddle prev i L = (L, []) := by
  induction L with
  | nil => intro prev i _ _; simp [compactMiddle]
  | cons l ls ih =>
    intro prev i hAdj hPrev
    have hguard : (isBlank l && prev) = false := by
      cases prev with
      | false => simp
      | true =>
        have := hPrev rfl
        simp only [List.head?_cons, Option.all_some] at this
        simp [show isBlank l = false by simpa using this]
    rw [compactMiddle, if_neg (by simp [hguard])]
    rw [noAdjacentBlanks_cons, Bool.and_eq_true] at hAdj
    have tail : compactMiddle (isBlank l) (i + 1) ls = (ls, []) := by
      apply ih (isBlank l) (i + 1) hAdj.2
      intro hb
      cases hh : ls.head? with
      | none => simp
      | some y =>
        rw [hh] at hAdj
        have := hAdj.1
        simp only [Option.all_some] at this ⊢
        rw [hb] at this
        simpa using this
    rw [tail]

theorem removeTrailingAux_noop (L : List (List Char)) (n : Nat)
    (h : L.head?.all (fun a => !isBlank a) = true) :
    removeTrailingAux L n = (L, []) := by
  cases L with
  | nil => simp [removeTrailingAux]
  | cons l ls =>
    simp only [List.head?_cons, Option.all_some] at h
    rw [removeTrailingAux, if_neg (by simp [show isBlank l = false by simpa using h])]

theorem fixEmptyLines_noop (L : List (List Char))
    (h1 : L.head?.all (fun a => !isBlank a) = true)
    (h2 : L.getLast?.all (fun a => !isBlank a) = true)
    (h3 : noAdjacentBlanks L = true) :
    fixEmptyLines L = (L, []) := by
  cases L with
  | nil => simp [fixEmptyLines]
  | cons l ls =>
    simp only [List.head?_cons, Option.all_some] at h1
    have e1 : removeLeading 0 (l :: ls) = (l :: ls, []) := by
      rw [removeLeading,
        if_neg (by simp [show isBlank l = false by simpa using h1])]
    have e2 : compactMiddle false 0 (l :: ls) = (l :: ls, []) :=
      compactMiddle_noop (l :: ls) false 0 h3 (by simp)
    have e3 : removeTrailing (l :: ls) = (l :: ls, []) := by
      rw [removeTrailing, removeTrailingAux_noop (l :: ls).reverse _
        (by rw [List.head?_reverse]; exact h2)]
      simp
    rw [fixEmptyLines, if_neg (by simp)]
    simp only [e1, e2, e3]
    simp [e2, e3]

theorem fixIndentation_noop (L : List (List Char))
    (h : L.all (fun l => !(l.head? == some ' ')) = true) :
    ∀ i, fixIndentation i L = (L, []) := by
  induction L with
  | nil => intro i; simp [fixIndentation]
  | cons l ls ih =>
    intro i
    rw [List.all_cons, Bool.and_eq_true] at h
    rw [fixIndentation]
    rw [if_neg (by simpa using h.1)]
    simp [ih h.2 (i + 1)]

theorem fixMultipleVariableDeclarations_noop (L : List (List Char))
    (h : L.all
      (fun l => containsSeq (("for").toList) l || !varDeclMatch l) = true) :
    ∀ i, fixMultipleVariableDeclarations i L = (L, []) := by
  induction L with
  | nil => intro i; simp [fixMultipleVariableDeclarations]
  | cons l ls ih =>
    intro i
    rw [List.all_cons, Bool.and_eq_true] at h
    have tail := ih h.2 (i + 1)
    rw [fixMultipleVariableDeclarations]
    by_cases hf : containsSeq (("for").toList) l = true
    · rw [if_pos hf, tail]
    · have hv : varDeclMatch l = false := by
        have := h.1
        rw [Bool.or_eq_true] at this
        rcases this with hc | hc
        · exact absurd hc hf
        · simpa using hc
      rw [if_neg hf, if_neg (by simp [hv]), tail]

theorem fixCommentFormat_noop (L : List (List Char))
    (h : L.all (fun l => (splitAtSlashSlash l).isNone) = true) :
    ∀ i, fixCommentFormat i L = (L, []) := by
  induction L with
  | nil => intro i; simp [fixCommentFormat]
  | cons l ls ih =>
    intro i
    rw [List.all_cons, Bool.and_eq_true] at h
    have hn : splitAtSlashSlash l = none := by
      have := h.1; rwa [Option.isNone_iff_eq_none] at this
    rw [fixCommentFormat, hn]
    simp [ih h.2 (i + 1)]

theorem fixForLoopDeclarations_noop (L : List (List Char))
    (h : L.all (fun l => (forDeclParse l).isNone) = true) :
    ∀ i, fixForLoopDeclarations i L = (L, []) := by
  induction L with
  | nil => intro i; simp [fixForLoopDeclarations]
  | cons l ls ih =>
    intro i
    rw [List.all_cons, Bool.and_eq_true] at h
    have hn : forDeclParse l = none := by
      have := h.1; rwa [Option.isNone_iff_eq_none] at this
    rw [fixForLoopDeclarations, hn]
    simp [ih h.2 (i + 1)]

/-- A line list on which none of the five passes fires is returned unchanged
with an empty fix list. -/
theorem runPipeline_fixpoint (O : List (List Char))
    (h1 : O.head?.all (fun a => !isBlank a) = true)
    (h2 : O.getLast?.all (fun a => !isBlank a) = true)
    (h3 : noAdjacentBlanks O = true)
    (h4 : O.all (fun l => !(l.head? == some ' ')) = true)
    (h5 : O.all
      (fun l => containsSeq (("for").toList) l || !varDeclMatch l) = true)
    (h6 : O.all (fun l => (splitAtSlashSlash l).isNone) = true)
    (h7 : O.all (fun l => (forDeclParse l).isNone) = true) :
    runPipeline O = (O, []) := by
  have e1 := fixEmptyLines_noop O h1 h2 h3
  have e2 := fixIndentation_noop O h4 0
  have e3 := fixMultipleVariableDeclarations_noop O h5 0
  have e4 := fixCommentFormat_noop O h6 0
  have e5 := fixForLoopDeclarations_noop O h7 0
  simp only [runPipeline, e1, e2, e3, e4, e5]
  simp [e2, e3, e4, e5]

/-- C1 (amended): the pipeline run a second time on the first run's output
is a no-op — zero additional `Fix` records and an unchanged line list —
whenever that output triggers none of the five passes: no blank-line
violation, no line starting with a space, no declaration-pattern match
outside a `for` line, no `//`, and no for-loop-pattern match. (Without these
conditions the second run can emit further fixes; see the counterexample.) -/
theorem runPipeline_second_run_noop (L : List (List Char))
    (h1 : (runPipeline L).1.head?.all (fun a => !isBlank a) = true)
    (h2 : (runPipeline L).1.getLast?.all (fun a => !isBlank a) = true)
    (h3 : noAdjacentBlanks (runPipeline L).1 = true)
    (h4 : (runPipeline L).1.all (fun l => !(l.head? == some ' ')) = true)
    (h5 : (runPipeline L).1.all
      (fun l => containsSeq (("for").toList) l || !varDeclMatch l) = true)
    (h6 : (runPipeline L).1.all (fun l => (splitAtSlashSlash l).isNone) = true)
    (h7 : (runPipeline L).1.all (fun l => (forDeclParse l).isNone) = true) :
    runPipeline ((runPipeline L).1) = ((runPipeline L).1, []) :=
  runPipeline_fixpoint _ h1 h2 h3 h4 h5 h6 h7

/-- Witness for C1's amended statement at `["int x;"]`. -/
theorem runPipeline_second_run_noop_witness :
    runPipeline ((runPipeline [("int x;").toList]).1)
      = ((runPipeline [("int x;").toList]).1, []) :=
  runPipeline_second_run_noop [("int x;").toList] (by decide) (by decide)
    (by decide) (by decide) (by decide) (by decide) (by decide)

/-- Counterexample for C1 as stated: on `[" x"]` the first run already
returns the list unchanged, yet the second run still emits one `Fix`
(the indentation pass reports every line whose first character is a space,
even when the rewrite is the identity), so the second run does not produce
zero additional `Fix` records. -/
theorem runPipeline_not_idempotent :
    (runPipeline [(" x").toList]).1 = [(" x").toList]
    ∧ (runPipeline ((runPipeline [(" x").toList]).1)).2.length = 1 := by
  decide

/-! ## Function extraction (`extractFunctions`) -/

/-- `types.FunctionInfo`. -/
structure FunctionInfo where
  name : List Char
  startLine : Nat
  endLine : Nat
  paramCount : Nat
deriving DecidableEq

/-- The header filter of `extractFunctions`: the trimmed line contains `(`
and `)`, a `{` here or on the next line, is not a comment, and mentions none
of `if`, `while`, `for`, `switch` as a substring. -/
def headerGuard (t : List Char) (nextBrace : Bool) : Bool :=
  t.any (fun c => c == '(') && t.any (fun c => c == ')') &&
  (t.any (fun c => c == '\x7b') || nextBrace) &&
  !startsWith (("//").toList) t && !startsWith (("/*").toList) t &&
  !containsSeq (("if").toList) t && !containsSeq (("while").toList) t &&
  !containsSeq (("for").toList) t && !containsSeq (("switch").toList) t

/-- The name/parameter extraction of `extractFunctions` on a trimmed header
line: the name is the last field before the first `(` (leading `*` stripped),
and `param_count` counts commas between the first `(` and the first following
`)`, with a blank or `void` text counting zero. `Index` returning `-1` or `0`
(no `)` after the `(`, or `()` with nothing between) yields no function. -/
def parseHeader (t : List Char) : Option (List Char × Nat) :=
  if (t.takeWhile (fun c => !(c == '('))).length = 0 then none
  else
    match (fields (t.take (t.takeWhile (fun c => !(c == '('))).length)).getLast? with
    | none => none
    | some nm0 =>
      if ((t.drop ((t.takeWhile (fun c => !(c == '('))).length + 1)).takeWhile
            (fun c => !(c == ')'))).length = 0 then none
      else if !((t.drop ((t.takeWhile (fun c => !(c == '('))).length + 1)).any
            (fun c => c == ')')) then none
      else
        some ((if nm0.any (fun c => c == '*') then
                 nm0.dropWhile (fun c => c == '*') else nm0),
          (if (trimSpace ((t.drop ((t.takeWhile (fun c => !(c == '('))).length + 1)).take
                ((t.drop ((t.takeWhile (fun c => !(c == '('))).length + 1)).takeWhile
                  (fun c => !(c == ')'))).length)).isEmpty
              || trimSpace ((t.drop ((t.takeWhile (fun c => !(c == '('))).length + 1)).take
                ((t.drop ((t.takeWhile (fun c => !(c == '('))).length + 1)).takeWhile
                  (fun c => !(c == ')'))).length) == ("void").toList
           then 0
           else ((t.drop ((t.takeWhile (fun c => !(c == '('))).length + 1)).take
                ((t.drop ((t.takeWhile (fun c => !(c == '('))).length + 1)).takeWhile
                  (fun c => !(c == ')'))).length).countP (fun c => c == ',') + 1))

/-- One step of the header recognizer: a recognized header opens a new span
(overwriting any open one), a failed parse keeps the current span. -/
def stepHeader (cur : Option FunctionInfo) (t : List Char) (nextBrace : Bool)
    (i : Nat) : Option FunctionInfo :=
  if headerGuard t nextBrace then
    match parseHeader t with
    | some np => some ⟨np.1, i + 1, 0, np.2⟩
    | none => cur
  else cur

/-- Whether the trimmed next line contains `{`. -/
def nextBraceOf (ls : List (List Char)) : Bool :=
  match ls with
  | [] => false
  | nxt :: _ => (trimSpace nxt).any (fun c => c == '\x7b')

/-- The forward scan of `extractFunctions`: `i` is the 0-based line index,
`cur` the open span, `braces` the running brace depth (counted on the raw
line); a span closes when the depth returns to zero on a line containing
`}`. -/
def extractFunctionsAux :
    Nat → Option FunctionInfo → Int → List (List Char) → List FunctionInfo
  | _, _, _, [] => []
  | i, cur, braces, l :: ls =>
    match stepHeader cur (trimSpace l) (nextBraceOf ls) i with
    | some fn =>
      if (braces + (l.countP (fun c => c == '\x7b') : Int)
            - (l.countP (fun c => c == '\x7d') : Int)) == 0
          && l.any (fun c => c == '\x7d') then
        ⟨fn.name, fn.startLine, i + 1, fn.paramCount⟩
          :: extractFunctionsAux (i + 1) none
              (braces + (l.countP (fun c => c == '\x7b') : Int)
                - (l.countP (fun c => c == '\x7d') : Int)) ls
      else
        extractFunctionsAux (i + 1) (some fn)
          (braces + (l.countP (fun c => c == '\x7b') : Int)
            - (l.countP (fun c => c == '\x7d') : Int)) ls
    | none =>
      extractFunctionsAux (i + 1) none
        (braces + (l.countP (fun c => c == '\x7b') : Int)
          - (l.countP (fun c => c == '\x7d') : Int)) ls

/-- `extractFunctions`. -/
def extractFunctions (lines : List (List Char)) : List FunctionInfo :=
  extractFunctionsAux 0 none 0 lines

/-- The text strictly between the first `(` and the first `)` after it. -/
def betweenFirstParens (t : List Char) : List Char :=
  ((t.dropWhile (fun c => !(c == '('))).drop 1).takeWhile (fun c => !(c == ')'))

/-- The amended claim's parameter count: split the text between the first
`(` and the first following `)` on commas; a blank or `void` text is zero. -/
def paramCountSpecOf (t : List Char) : Nat :=
  if (trimSpace (betweenFirstParens t)).isEmpty
      || trimSpace (betweenFirstParens t) == ("void").toList then 0
  else (splitOnChar ',' (betweenFirstParens t)).length

theorem take_takeWhile {α : Type} (p : α → Bool) (l : List α) :
    l.take (l.takeWhile p).length = l.takeWhile p := by
  induction l with
  | nil => simp
  | cons a as ih =>
    by_cases h : p a = true
    · rw [List.takeWhile_cons, if_pos h]
      simpa using ih
    · rw [List.takeWhile_cons, if_neg h]
      simp

theorem dropWhile_eq_drop {α : Type} (p : α → Bool) (l : List α) :
    l.dropWhile p = l.drop (l.takeWhile p).length := by
  induction l with
  | nil => simp
  | cons a as ih =>
    by_cases h : p a = true
    · rw [List.takeWhile_cons, if_pos h, List.dropWhile_cons, if_pos h]
      simpa using ih
    · rw [List.takeWhile_cons, if_neg h, List.dropWhile_cons, if_neg h]
      simp

theorem splitOnCharAux_length (sep : Char) (s : List Char) :
    ∀ acc, (splitOnCharAux sep acc s).length
      = s.countP (fun c => c == sep) + 1 := by
  induction s with
  | nil => intro acc; simp [splitOnCharAux]
  | cons c cs ih =>
    intro acc
    by_cases h : (c == sep) = true
    · rw [splitOnCharAux, if_pos h, List.length_cons, ih [],
        List.countP_cons, if_pos h]
    · rw [splitOnCharAux, if_neg h, ih (c :: acc), List.countP_cons,
        if_neg h]

theorem splitOnChar_length (sep : Char) (s : List Char) :
    (splitOnChar sep s).length = s.countP (fun c => c == sep) + 1 :=
  splitOnCharAux_length sep s []

theorem parseHeader_paramCount (t nm : List Char) (pc : Nat)
    (h : parseHeader t = some (nm, pc)) : pc = paramCountSpecOf t := by
  have hb : (t.drop ((t.takeWhile (fun c => !(c == '('))).length + 1)).take
      ((t.drop ((t.takeWhile (fun c => !(c == '('))).length + 1)).takeWhile
        (fun c => !(c == ')'))).length
      = betweenFirstParens t := by
    rw [take_takeWhile, betweenFirstParens, dropWhile_eq_drop, List.drop_drop,
      Nat.add_comm]
  rw [parseHeader] at h
  split at h
  · simp at h
  · split at h
    · simp at h
    · split at h
      · simp at h
      · split at h
        · simp at h
        · simp only [Option.some.injEq, Prod.mk.injEq] at h
          rw [← h.2, paramCountSpecOf, hb, splitOnChar_length]

theorem getElem?_of_drop {α : Type} (lines : List α) :
    ∀ i l ls, lines.drop i = l :: ls → lines[i]? = some l := by
  induction lines with
  | nil => intro i l ls h; rw [List.drop_nil] at h; cases h
  | cons a as ih =>
    intro i l ls h
    cases i with
    | zero =>
      rw [List.drop_zero] at h
      rw [List.cons.injEq] at h
      simp [h.1]
    | succ n =>
      rw [List.drop_succ_cons] at h
      simpa using ih n l ls h

theorem drop_succ_of_drop {α : Type} (lines : List α) (i : Nat)
    (l : α) (ls : List α) (h : lines.drop i = l :: ls) :
    lines.drop (i + 1) = ls := by
  have e : lines.drop (i + 1) = (lines.drop i).drop 1 := by
    rw [List.drop_drop, Nat.add_comm]
  rw [e, h, List.drop_succ_cons, List.drop_zero]

theorem extractFunctionsAux_inv (lines : List (List Char)) :
    ∀ ls i cur braces, lines.drop i = ls →
      (∀ f, cur = some f →
        ∃ hl, lines[f.startLine - 1]? = some hl ∧
          parseHeader (trimSpace hl) = some (f.name, f.paramCount)) →
      ∀ fn ∈ extractFunctionsAux i cur braces ls,
        ∃ hl, lines[fn.startLine - 1]? = some hl ∧
          parseHeader (trimSpace hl) = some (fn.name, fn.paramCount) := by
  intro ls
  induction ls with
  | nil =>
    intro i cur braces _ _ fn hfn
    simp [extractFunctionsAux] at hfn
  | cons l ls2 ih =>
    intro i cur braces hdrop hcur fn hfn
    have hline : lines[i]? = some l := getElem?_of_drop lines i l ls2 hdrop
    have hdrop2 : lines.drop (i + 1) = ls2 := drop_succ_of_drop lines i l ls2 hdrop
    have hcur1 : ∀ f, stepHeader cur (trimSpace l) (nextBraceOf ls2) i = some f →
        ∃ hl, lines[f.startLine - 1]? = some hl ∧
          parseHeader (trimSpace hl) = some (f.name, f.paramCount) := by
      intro f hf
      rw [stepHeader] at hf
      by_cases hg : headerGuard (trimSpace l) (nextBraceOf ls2) = true
      · rw [if_pos hg] at hf
        cases hp : parseHeader (trimSpace l) with
        | none => rw [hp] at hf; exact hcur f hf
        | some np =>
          rw [hp] at hf
          rw [Option.some.injEq] at hf
          subst hf
          refine ⟨l, by simpa using hline, ?_⟩
          rw [hp]
      · rw [if_neg hg] at hf; exact hcur f hf
    rw [extractFunctionsAux] at hfn
    split at hfn
    · rename_i fcur hs
      split at hfn
      · rcases List.mem_cons.mp hfn with rfl | hmem
        · exact hcur1 fcur hs
        · exact ih (i + 1) none _ hdrop2 (by intro f hf; cases hf) fn hmem
      · refine ih (i + 1) (some fcur) _ hdrop2 ?_ fn hfn
        intro f hf
        rw [Option.some.injEq] at hf
        exact hf ▸ hcur1 fcur hs
    · exact ih (i + 1) none _ hdrop2 (by intro f hf; cases hf) fn hfn

/-- C7 (amended): every span recognized by `extractFunctions` carries the
parameter count obtained from its header line (the line at `startLine`) by
splitting the text between the first `(` and the first following `)` on
commas, with a whitespace-only or `void` text counting zero; a header whose
first `)` immediately follows its first `(` — the literal `()` — is never
recognized at all. -/
theorem extractFunctions_paramCount_spec (lines : List (List Char)) :
    ∀ fn ∈ extractFunctions lines,
      ∃ hl, lines[fn.startLine - 1]? = some hl
        ∧ parseHeader (trimSpace hl) = some (fn.name, fn.paramCount)
        ∧ fn.paramCount = paramCountSpecOf (trimSpace hl) := by
  intro fn hfn
  obtain ⟨hl, e1, e2⟩ := extractFunctionsAux_inv lines lines 0 none 0
    (by simp) (by intro f hf; cases hf) fn hfn
  exact ⟨hl, e1, e2, parseHeader_paramCount _ _ _ e2⟩

/-- Witness for C7's amended statement: the recognized header
`int add(int a, int b)` yields a span whose count agrees with the
first-parenthesis split. -/
theorem extractFunctions_paramCount_spec_witness :
    parseHeader (trimSpace (("int add(int a, int b)").toList))
      = some (("add").toList, 2)
    ∧ paramCountSpecOf (trimSpace (("int add(int a, int b)").toList)) = 2 := by
  obtain ⟨hl, hget, hparse, hpc⟩ := extractFunctions_paramCount_spec
    [("int add(int a, int b)").toList, ("\x7b").toList, ("\x7d").toList]
    ⟨("add").toList, 1, 3, 2⟩ (by decide)
  have he : hl = ("int add(int a, int b)").toList := by
    have h0 : ([("int add(int a, int b)").toList, ("\x7b").toList,
        ("\x7d").toList] : List (List Char))[(0 : Nat)]?
        = some (("int add(int a, int b)").toList) := rfl
    have h1 := h0.symm.trans hget
    injection h1 with h1
    exact h1.symm
  subst he
  exact ⟨hparse, hpc.symm⟩

/-- Counterexample for C7 as stated: the header `int f()` has an empty
parameter list, yet no function is recognized (the source requires the first
`)` to sit at a positive offset after the `(`), while `int f(void)` is
recognized with zero parameters. -/
theorem extractFunctions_empty_parens_not_recognized :
    extractFunctions [("int f()").toList, ("\x7b").toList, ("\x7d").toList] = []
    ∧ extractFunctions [("int f(void)").toList, ("\x7b").toList, ("\x7d").toList]
        = [⟨("f").toList, 1, 3, 0⟩] := by
  decide

/-! ## C8: `FixFile` and the dry-run contract -/

/-- `filepath.Base` for slash-separated paths. -/
def pathBase (s : List Char) : List Char :=
  if ((s.reverse.dropWhile (fun c => c == '/')).reverse).isEmpty then
    (if s.isEmpty then [('.')] else [('/')])
  else
    ((((s.reverse.dropWhile (fun c => c == '/')).reverse).reverse.takeWhile
        (fun c => !(c == '/'))).reverse)

/-- `filepath.Ext`: the suffix starting at the final dot of the final path
element, empty when there is none. -/
def pathExt (s : List Char) : List Char :=
  if (s.reverse.takeWhile (fun c => !(c == '/'))).any (fun c => c == '.') then
    ('.') :: ((s.reverse.takeWhile (fun c => !(c == '/'))).takeWhile
        (fun c => !(c == '.'))).reverse
  else []

/-- `strings.TrimSuffix`. -/
def trimSuffixList (s suf : List Char) : List Char :=
  if s.drop (s.length - suf.length) == suf then
    s.take (s.length - suf.length)
  else s

/-- `filepath.Dir` for slash-separated paths (no cleaning of `.` or `..`,
which the fixer never produces). -/
def pathDir (s : List Char) : List Char :=
  if ((s.reverse.dropWhile (fun c => !(c == '/'))).reverse).isEmpty then
    [('.')]
  else if (((s.reverse.dropWhile (fun c => !(c == '/'))).reverse).reverse.dropWhile
      (fun c => c == '/')).isEmpty then
    [('/')]
  else
    ((((s.reverse.dropWhile (fun c => !(c == '/'))).reverse).reverse.dropWhile
        (fun c => c == '/')).reverse)

/-- `filepath.Join` of a directory and a file name (`Join` cleans the
result, so a `.` directory disappears). -/
def pathJoin (d f : List Char) : List Char :=
  if d.isEmpty then f
  else if d == [('.')] then f
  else d ++ [('/')] ++ f

/-- Modelled from the spec: the repository calls `types.ToSnakeCase`, whose
definition is not under src/ (only its tests are); per the specification's
filename-casing fixer and the tests (`"HelloWorld" ↦ "hello_world"`,
`"ABCTest" ↦ "a_b_c_test"`), every uppercase letter is lowercased and
preceded by an underscore except at the start. -/
def toSnakeCaseAux : Bool → List Char → List Char
  | _, [] => []
  | first, c :: rest =>
    if isUpperAscii c then
      (if first then [] else [('_')]) ++ [c.toLower] ++ toSnakeCaseAux false rest
    else c :: toSnakeCaseAux false rest

/-- Modelled from the spec: `types.ToSnakeCase` (see `toSnakeCaseAux`). -/
def toSnakeCase (s : List Char) : List Char :=
  toSnakeCaseAux true s

/-- `Fixer.shouldFixFilename`: basename minus extension not snake_case. -/
def shouldFixFilename (filename : List Char) : Bool :=
  !(isSnakeCase (trimSuffixList (pathBase filename)
      (pathExt (pathBase filename))))

/-- `Fixer.fixFilename`. -/
def fixFilename (filename : List Char) : List Char :=
  pathJoin (pathDir filename)
    (toSnakeCase (trimSuffixList (pathBase filename)
        (pathExt (pathBase filename)))
      ++ pathExt (pathBase filename))

/-- `fixer.FixResult`. -/
structure FixResult where
  filename : List Char
  originalLines : Nat
  fixedLines : Nat
  fixes : List Fix
  modifiedContent : Bool
  newFilename : List Char
deriving DecidableEq

/-- `Fixer.FixFile` on an already-read file: split the content on newlines,
run the five passes, append the `C-O1` rename fix when the basename is not
snake_case, and write back only when not in dry-run mode and the content
changed. Returns the result and the file's content after the call. -/
def FixFile (dryRun : Bool) (filename content : List Char) :
    FixResult × List Char :=
  (⟨pathBase filename,
    (splitOnChar '\n' content).length,
    (splitOnChar '\n'
      (List.intercalate [('\n')] (runPipeline (splitOnChar '\n' content)).1)).length,
    (if shouldFixFilename filename then
       (runPipeline (splitOnChar '\n' content)).2
         ++ [⟨"C-O1", "Rename file to "
              ++ String.mk (pathBase (fixFilename filename)), 0⟩]
     else (runPipeline (splitOnChar '\n' content)).2),
    (!dryRun && !(List.intercalate [('\n')]
        (runPipeline (splitOnChar '\n' content)).1 == content)),
    (if shouldFixFilename filename then fixFilename filename else [])⟩,
   if (!dryRun && !(List.intercalate [('\n')]
        (runPipeline (splitOnChar '\n' content)).1 == content)) then
     List.intercalate [('\n')] (runPipeline (splitOnChar '\n' content)).1
   else content)

/-- One file of `runFixer`: run `FixFile`, then rename only outside dry-run
mode when a new name was produced (the rename block of the source sits under
`len(result.Fixes) > 0`, which the appended `C-O1` fix guarantees whenever
`NewFilename` is nonempty). Returns the result, the file's name after the
call, and its content after the call. -/
def runFixerStep (dryRun : Bool) (filename content : List Char) :
    FixResult × List Char × List Char :=
  ((FixFile dryRun filename content).1,
   (if !dryRun && !((FixFile dryRun filename content).1.newFilename.isEmpty)
    then (FixFile dryRun filename content).1.newFilename else filename),
   (FixFile dryRun filename content).2)

/-- C8: on the same content, dry-run mode computes the identical `Fix` list
as apply mode, and performs no write and no rename: the file's name and
content after a dry run equal the ones before it. -/
theorem FixFile_dryRun_spec (filename content : List Char) :
    (runFixerStep true filename content).1.fixes
      = (runFixerStep false filename content).1.fixes
    ∧ (runFixerStep true filename content).2.1 = filename
    ∧ (runFixerStep true filename content).2.2 = content :=
  ⟨rfl, rfl, rfl⟩

/-! ## C9: per-file read errors are skipped (`Analyzer.AnalyzePath`) -/

/-- `types.FileResult`. -/
structure FileResult where
  filename : String
  violations : List Violation
  score : ℚ
  lineCount : Nat

/-- `types.Report`. -/
structure Report where
  files : List FileResult
  totalScore : ℚ
  totalFiles : Nat
  totalLines : Nat
  totalViolations : Nat
  cleanFiles : Nat

/-- The zero `Report` that `AnalyzePath` starts from. -/
def emptyReport : Report :=
  ⟨[], 0, 0, 0, 0, 0⟩

/-- The loop body of `AnalyzePath` for a successfully analyzed file. -/
def addFileResult (rep : Report) (res : FileResult) : Report :=
  { rep with
    files := rep.files ++ [res]
    totalFiles := rep.totalFiles + 1
    totalLines := rep.totalLines + res.lineCount
    totalViolations := rep.totalViolations + res.violations.length
    cleanFiles := rep.cleanFiles
      + (if res.violations.length = 0 then 1 else 0) }

/-- One iteration of `AnalyzePath`'s loop: a failed `AnalyzeFile` (`none`,
modelling the read error) is skipped with `continue`. -/
def analyzeStep (analyzeFile : String → Option FileResult)
    (rep : Report) (f : String) : Report :=
  match analyzeFile f with
  | none => rep
  | some res => addFileResult rep res

/-- `Analyzer.AnalyzePath` over an already-collected file list, parameterized
by the per-file analysis (whose only failure mode in the source is the file
read): accumulate the per-file results, then set the total score to the mean
of the per-file scores when at least one file was analyzed. -/
def AnalyzePath (analyzeFile : String → Option FileResult)
    (files : List String) : Report :=
  if 0 < (files.foldl (analyzeStep analyzeFile) emptyReport).totalFiles then
    { files.foldl (analyzeStep analyzeFile) emptyReport with
      totalScore :=
        ((files.foldl (analyzeStep analyzeFile) emptyReport).files.map
            FileResult.score).sum
          / ((files.foldl (analyzeStep analyzeFile) emptyReport).totalFiles : ℚ) }
  else files.foldl (analyzeStep analyzeFile) emptyReport

theorem analyzeStep_foldl_filter (af : String → Option FileResult)
    (files : List String) : ∀ rep,
    files.foldl (analyzeStep af) rep
      = (files.filter (fun f => (af f).isSome)).foldl (analyzeStep af) rep := by
  induction files with
  | nil => intro rep; rfl
  | cons f fs ih =>
    intro rep
    rw [List.foldl_cons, List.filter_cons]
    cases haf : af f with
    | none =>
      rw [if_neg (by simp [haf])]
      have hstep : analyzeStep af rep f = rep := by rw [analyzeStep, haf]
      rw [hstep, ih rep]
    | some res =>
      rw [if_pos (by simp [haf]), List.foldl_cons]
      exact ih _

/-- C9: a file whose read fails is skipped and contributes nothing — the
report over a file list equals the report over the sublist of readable
files, so `total_files`, `total_lines`, `total_violations`, `clean_files`
and the per-file score mean are computed from the analyzed files alone. -/
theorem AnalyzePath_skips_unreadable (af : String → Option FileResult)
    (files : List String) :
    AnalyzePath af files
      = AnalyzePath af (files.filter (fun f => (af f).isSome)) := by
  rw [AnalyzePath, AnalyzePath, analyzeStep_foldl_filter]

end Gonana
